import Mathlib

/-!
Verification of the animal-name table-extraction pipeline (`main.py`).

The core components are embedded as executable Lean definitions:
text is `List Char`; an HTML table cell is a flat list of pieces (plain
text, `<sup>` footnote markers, `<a>` links), exposing exactly the
operations the source uses (`.text`, `find("a")`, `sup.decompose()`,
`stripped_strings`); Python dicts are insertion-ordered association
lists; `re.sub("\s+\(.*\)", "", _)` and
`re.search("See (.*?)\)?$", _, re.I)` are modelled directly as
character-list scanners with the leftmost/greedy/lazy behaviour of the
Python `re` module.
-/

/-- ASCII whitespace per Python `\s` / `str.strip` (space, tab, newline,
carriage return, vertical tab, form feed). -/
def isSpc (c : Char) : Bool :=
  c = ' ' || c = '\t' || c = '\n' || c = '\r' || c.toNat = 11 || c.toNat = 12

/-- Python `str.strip()`: drop whitespace from both ends. -/
def stripChars (s : List Char) : List Char :=
  ((s.dropWhile isSpc).reverse.dropWhile isSpc).reverse

/-- Index of the last `')'` in a list of characters, if any. -/
def lastClose : List Char → Option Nat
  | [] => none
  | c :: cs =>
    match lastClose cs with
    | some k => some (k + 1)
    | none => if c = ')' then some 0 else none

/-- One match attempt of the regex `\s+\(.*\)` anchored at the head of
`cs`: a maximal nonempty whitespace run, then `'('`, then (greedily, `.`
not crossing a newline) everything up to the last reachable `')'`.
Returns the remainder after the match, or `none` if no match starts
exactly here. -/
def tryMatch (cs : List Char) : Option (List Char) :=
  let n := (cs.takeWhile isSpc).length
  if n = 0 then none
  else
    match cs.drop n with
    | [] => none
    | c :: rest =>
      if c = '(' then
        match lastClose (rest.takeWhile (fun x => x ≠ '\n')) with
        | some k => some (rest.drop (k + 1))
        | none => none
      else none

/-- Global substitution of `\s+\(.*\)` by the empty string, scanning left
to right and resuming after each replacement, exactly like `re.sub`.
The fuel argument only forces termination; every step consumes at least
one character, so fuel equal to the length of the input suffices. -/
def subAllF : Nat → List Char → List Char
  | 0, cs => cs
  | fuel + 1, cs =>
    match cs with
    | [] => []
    | c :: rest =>
      match tryMatch (c :: rest) with
      | some r => subAllF fuel r
      | none => c :: subAllF fuel rest

/-- Model of `re.sub("\s+\(.*\)", "", s)` from line 158 of `main.py`. -/
def reSub (s : List Char) : List Char := subAllF s.length s

/-- Can the regex tail `\)?$` match at this point of the subject?  `$`
matches at the end of the string or just before a final newline (Python
non-MULTILINE semantics). -/
def endCond : List Char → Bool
  | [] => true
  | ['\n'] => true
  | [')'] => true
  | [')', '\n'] => true
  | _ => false

/-- Lazy capture of `(.*?)\)?$`: the shortest newline-free prefix after
which `\)?$` matches.  Returns the captured characters. -/
def findCapture : List Char → Option (List Char)
  | [] => some []
  | c :: rest =>
    if endCond (c :: rest) then some []
    else if c = '\n' then none
    else (findCapture rest).map (fun l => c :: l)

/-- Match the literal `See ` (case-insensitively on the letters, as under
`re.I`) at the head of the list, returning what follows it. -/
def seeLit : List Char → Option (List Char)
  | s :: e₁ :: e₂ :: sp :: rest =>
    if (s = 'S' || s = 's') && (e₁ = 'e' || e₁ = 'E') && (e₂ = 'e' || e₂ = 'E') && sp = ' '
    then some rest else none
  | _ => none

/-- Model of `re.search("See (.*?)\)?$", s, re.I)` from line 147 of `main.py`:
leftmost occurrence of `See ` from which the lazy capture succeeds;
returns `group(1)`. -/
def seeSearch : List Char → Option (List Char)
  | [] => none
  | c :: rest =>
    match seeLit (c :: rest) with
    | some after =>
      match findCapture after with
      | some cap => some cap
      | none => seeSearch rest
    | none => seeSearch rest

/-- One flattened fragment of a table cell: plain text, a `<sup>`
footnote/citation marker, or an `<a>` link. -/
inductive Piece where
  | txt (s : List Char)
  | sup (s : List Char)
  | link (s : List Char)
deriving DecidableEq

/-- Rendered text of a piece. -/
def Piece.text : Piece → List Char
  | .txt s => s
  | .sup s => s
  | .link s => s

/-- Whether a piece is a `<sup>` element. -/
def Piece.isSup : Piece → Bool
  | .sup _ => true
  | _ => false

/-- A `<td>` cell, as the sequence of its pieces. -/
structure Cell where
  pieces : List Piece
deriving DecidableEq

/-- BeautifulSoup `.text`: concatenation of every contained string. -/
def cellText (c : Cell) : List Char := (c.pieces.map Piece.text).flatten

/-- BeautifulSoup `cell.find("a")` followed by `.text`: text of the first
link in the cell, if any. -/
def firstLink (c : Cell) : Option (List Char) :=
  c.pieces.findSome? fun p =>
    match p with
    | Piece.link s => some s
    | _ => none

/-- Effect of `sup.decompose()` applied to every `<sup>` of the cell. -/
def removeSups (c : Cell) : Cell := ⟨c.pieces.filter (fun p => !p.isSup)⟩

/-- BeautifulSoup `stripped_strings`: each contained string stripped of
surrounding whitespace, empty results skipped. -/
def strippedStrings (c : Cell) : List (List Char) :=
  ((c.pieces.map Piece.text).map stripChars).filter (fun s => s ≠ [])

/-- Lines 153-158 of `main.py`: decompose the `<sup>` footnotes, then
clean each remaining stripped string with `reSub`. -/
def cleanAdjs (c : Cell) : List (List Char) :=
  (strippedStrings (removeSups c)).map reSub

/-- Value attached to an animal: either its collateral-adjective list or
a `Ref` to another row (the `Ref` dataclass of `main.py`). -/
inductive Val where
  | adjs (l : List (List Char))
  | ref (r : List Char)
deriving DecidableEq

/-- Test `isinstance(v, Ref)`. -/
def Val.isRef : Val → Bool
  | .ref _ => true
  | .adjs _ => false

/-- Outcome of the loop body of `parse_species_table` on one row:
nothing yielded (`continue`), one `(name, value)` pair yielded, or an
exception (`IndexError` from `cols[5]`, or the explicit `ValueError`
when the name cell has no link). -/
inductive RowResult where
  | nothing
  | entry (name : List Char) (v : Val)
  | structError
deriving DecidableEq

/-- The literal `"?"`. -/
def qmarkT : List Char := ['?']

/-- Loop body of `parse_species_table` (lines 123-160 of `main.py`) on
one row's `<td>` cells: skip cell-less rows, read `cols[0]` and
`cols[5]` (failing when there are fewer than six cells), skip `"?"`
rows, require a link in the name cell, recognise the `See <x>` pattern
on empty adjective cells, and otherwise clean and yield the adjective
fragments. -/
def interpretRow (cells : List Cell) : RowResult :=
  match cells with
  | [] => RowResult.nothing
  | c0 :: rest =>
    match (c0 :: rest).get? 5 with
    | none => RowResult.structError
    | some adjCell =>
      if cellText adjCell = qmarkT then RowResult.nothing
      else
        match firstLink c0 with
        | none => RowResult.structError
        | some nm =>
          if cellText adjCell = [] then
            match seeSearch (cellText c0) with
            | some cap => RowResult.entry nm (Val.ref cap)
            | none => RowResult.entry nm (Val.adjs (cleanAdjs adjCell))
          else RowResult.entry nm (Val.adjs (cleanAdjs adjCell))

/-- Model of `parse_species_table` over a whole table (one entry per `<tr>`):
collects the yielded pairs in document order; any row exception aborts
the whole iteration, which is modelled as `none`. -/
def parse_species_table : List (List Cell) → Option (List (List Char × Val))
  | [] => some []
  | row :: rows =>
    match interpretRow row with
    | RowResult.structError => none
    | RowResult.nothing => parse_species_table rows
    | RowResult.entry n v => (parse_species_table rows).map (fun l => (n, v) :: l)

/-- Python `d[a]` read on an insertion-ordered dict modelled as an
association list: value at the first matching key. -/
def dictGet {α β : Type} [DecidableEq α] : List (α × β) → α → Option β
  | [], _ => none
  | (k, v) :: rest, a => if k = a then some v else dictGet rest a

/-- Python `d[k] = v`: replace the value at an existing key in place,
otherwise append a new entry at the end. -/
def dictSet {α β : Type} [DecidableEq α] : List (α × β) → α → β → List (α × β)
  | [], k, v => [(k, v)]
  | (k', v') :: rest, k, v =>
    if k' = k then (k', v) :: rest else (k', v') :: dictSet rest k v

/-- Python `del d[k]`: remove the entry at the key. -/
def dictDel {α β : Type} [DecidableEq α] : List (α × β) → α → List (α × β)
  | [], _ => []
  | (k', v') :: rest, k =>
    if k' = k then rest else (k', v') :: dictDel rest k

/-- One iteration of the `for k, v in only_refs` loop of `resolve_refs`
(lines 92-100 of `main.py`): for a `Ref` entry, look the referral up in
the current dict; substitute its value on success, delete the entry on
`KeyError`. -/
def refStep (cas : List (List Char × Val)) (kv : List Char × Val) :
    List (List Char × Val) :=
  match kv.2 with
  | Val.ref r =>
    match dictGet cas r with
    | some v2 => dictSet cas kv.1 v2
    | none => dictDel cas kv.1
  | Val.adjs _ => cas

/-- Model of `resolve_refs` (lines 81-103 of `main.py`): iterate over the `Ref`
entries of a snapshot of the (deep-copied) input, resolving each against
the current state of the dict.  Deep copying is invisible at the level
of values, so the snapshot is the input itself. -/
def resolve_refs (d : List (List Char × Val)) : List (List Char × Val) :=
  (d.filter (fun kv => kv.2.isRef)).foldl refStep d

/-- Model of `result.setdefault(u, []).append(t)` from `invert`: append `t` to
`u`'s bucket, creating the bucket at the end on first sight. -/
def appendAt {T U : Type} [DecidableEq U] :
    List (U × List T) → U → T → List (U × List T)
  | [], u, t => [(u, [t])]
  | (u', ts) :: rest, u, t =>
    if u' = u then (u', ts ++ [t]) :: rest else (u', ts) :: appendAt rest u t

/-- Model of `invert` (lines 65-78 of `main.py`): for every key `t` in order and
every `u` in its list in order, append `t` to `u`'s bucket. -/
def invert {T U : Type} [DecidableEq U] (index : List (T × List U)) :
    List (U × List T) :=
  index.foldl (fun result p => p.2.foldl (fun r u => appendAt r u p.1) result) []

/-- The stream of `(u, t)` insertions performed by `invert`, in order. -/
def insertionPairs {T U : Type} (index : List (T × List U)) : List (U × T) :=
  index.flatMap (fun p => p.2.map (fun u => (u, p.1)))

/-- Accumulate first occurrences: keep `x` only if unseen so far. -/
def fsAdd {α : Type} [DecidableEq α] (acc : List α) (x : α) : List α :=
  if x ∈ acc then acc else acc ++ [x]

/-- The distinct elements of `l` in order of first occurrence. -/
def firstSeen {α : Type} [DecidableEq α] (l : List α) : List α :=
  l.foldl fsAdd []

/-- Declarative description of one bucket of the inverted index: the
keys of `index`, in iteration order, repeated once per occurrence of
`v` in their value lists. -/
def bucketSpec {T U : Type} [DecidableEq U] (index : List (T × List U)) (v : U) :
    List T :=
  index.flatMap (fun p => (p.2.filter (fun u => u = v)).map (fun _ => p.1))

/-- Declarative description of the whole inverted index: buckets in
first-seen order of the values, each holding `bucketSpec`. -/
def invertSpec {T U : Type} [DecidableEq U] (index : List (T × List U)) :
    List (U × List T) :=
  (firstSeen (index.flatMap (fun p => p.2))).map (fun v => (v, bucketSpec index v))

/-- The heap of Python list objects: address = position, allocation
appends.  Only the adjective lists live here; strings and `Ref` objects
are immutable and are modelled by value. -/
structure Heap where
  cells : List (List (List Char))
deriving DecidableEq

/-- Content of the list object at address `a` (unused addresses read as
an empty list). -/
def getCell (h : Heap) (a : Nat) : List (List Char) := h.cells.getD a []

/-- A dict value in the heap model: a pointer to a list object, or an
immutable `Ref`. -/
inductive HVal where
  | addr (a : Nat)
  | ref (r : List Char)
deriving DecidableEq

/-- Test `isinstance(v, Ref)` in the heap model. -/
def HVal.isRef : HVal → Bool
  | .ref _ => true
  | .addr _ => false

/-- Bound check used to state that a dict only points at live cells. -/
def HVal.validIn (v : HVal) (n : Nat) : Bool :=
  match v with
  | .addr a => decide (a < n)
  | .ref _ => true

/-- Model of `copy.deepcopy(has_unresolved)` (line 90 of `main.py`): fresh list
objects are allocated for every list value; `Ref` values are immutable
and copied by value. -/
def deepcopyEntries : Heap → List (List Char × HVal) → Heap × List (List Char × HVal)
  | h, [] => (h, [])
  | h, (k, HVal.addr a) :: rest =>
    let p := deepcopyEntries ⟨h.cells ++ [getCell h a]⟩ rest
    (p.1, (k, HVal.addr h.cells.length) :: p.2)
  | h, (k, HVal.ref r) :: rest =>
    let p := deepcopyEntries h rest
    (p.1, (k, HVal.ref r) :: p.2)

/-- Loop body of `resolve_refs` in the heap model: `cas[k] =
cas[v.referral]` copies the pointer (or the `Ref` value) and never
touches the heap; `del cas[k]` removes the entry. -/
def hStep (cas : List (List Char × HVal)) (kv : List Char × HVal) :
    List (List Char × HVal) :=
  match kv.2 with
  | HVal.ref r =>
    match dictGet cas r with
    | some v2 => dictSet cas kv.1 v2
    | none => dictDel cas kv.1
  | HVal.addr _ => cas

/-- Model of `resolve_refs` in the heap model: deep-copy the caller's dict, then
run the resolution loop on the copy.  Returns the final heap and the
resolved dict. -/
def resolve_refs_heap (h : Heap) (d : List (List Char × HVal)) :
    Heap × List (List Char × HVal) :=
  let p := deepcopyEntries h d
  (p.1, (p.2.filter (fun kv => kv.2.isRef)).foldl hStep p.2)

/-- What the caller can observe of a dict value: the contents of the
list it points to, or the `Ref` itself. -/
inductive Obs where
  | list (l : List (List Char))
  | ref (r : List Char)
deriving DecidableEq

/-- Dereference a value against a heap. -/
def observe (h : Heap) : HVal → Obs
  | HVal.addr a => Obs.list (getCell h a)
  | HVal.ref r => Obs.ref r

/-- The caller-visible contents of a dict under a heap. -/
def observeDict (h : Heap) (d : List (List Char × HVal)) :
    List (List Char × Obs) :=
  d.map (fun kv => (kv.1, observe h kv.2))

/-! ### Concrete rows used as test vectors -/

/-- A cell with no contents. -/
def blankCell : Cell := ⟨[]⟩

/-- Name cell of the `Bull` example row: a link followed by the `See`
cross-reference text, so the full cell text is `"Bull (See Cattle)"`. -/
def bullNameCell : Cell := ⟨[Piece.link "Bull".data, Piece.txt " (See Cattle)".data]⟩

/-- The `Bull` example row: linked name cell, empty adjective cell. -/
def bullRow : List Cell :=
  [bullNameCell, blankCell, blankCell, blankCell, blankCell, blankCell]

/-- A row with a linked name cell, no `See` pattern, and an empty
adjective cell. -/
def donkeyRow : List Cell :=
  [⟨[Piece.link "Donkey".data, Piece.txt " extra".data]⟩,
   blankCell, blankCell, blankCell, blankCell, blankCell]

/-- Adjective cell whose fragments are `"bovine"` and
`"cowish (disputed)"` plus a footnote marker. -/
def bovineAdjCell : Cell :=
  ⟨[Piece.txt "bovine".data, Piece.txt "cowish (disputed)".data, Piece.sup "[1]".data]⟩

/-- A full data row with the `bovineAdjCell` adjective cell. -/
def bovineRow : List Cell :=
  [⟨[Piece.link "Aurochs".data]⟩, blankCell, blankCell, blankCell, blankCell, bovineAdjCell]

/-- A six-cell row whose adjective cell is `"?"` and whose name cell has
no link. -/
def qmarkNoLinkRow : List Cell :=
  [⟨[Piece.txt "Bovidae".data]⟩, blankCell, blankCell, blankCell, blankCell,
   ⟨[Piece.txt "?".data]⟩]

/-- A data row whose single adjective fragment `"a (b) c"` carries an
inner (non-trailing) parenthetical. -/
def sideParenRow : List Cell :=
  [⟨[Piece.link "Okapi".data]⟩, blankCell, blankCell, blankCell, blankCell,
   ⟨[Piece.txt "a (b) c".data]⟩]

/-- The chained-reference mapping
`{"a": Ref("b"), "b": Ref("c"), "c": ["x"]}`. -/
def chainInput : List (List Char × Val) :=
  [("a".data, Val.ref "b".data), ("b".data, Val.ref "c".data),
   ("c".data, Val.adjs ["x".data])]

/-! ### Row Interpreter lemmas -/

/-- An empty cell text forces empty cleaned adjectives: every contained
string is empty, so `stripped_strings` yields nothing. -/
theorem cleanAdjs_of_cellText_nil {c : Cell} (h : cellText c = []) :
    cleanAdjs c = [] := by
  have hall : ∀ p ∈ c.pieces, Piece.text p = [] := by
    intro p hp
    exact List.flatten_eq_nil_iff.mp h _ (List.mem_map_of_mem Piece.text hp)
  have hfil :
      ((((removeSups c).pieces.map Piece.text).map stripChars).filter
        (fun s => s ≠ [])) = [] := by
    apply List.filter_eq_nil_iff.mpr
    intro s hs
    simp only [List.mem_map] at hs
    obtain ⟨t, ⟨p, hp, rfl⟩, rfl⟩ := hs
    have hp' : p ∈ c.pieces := List.mem_of_mem_filter hp
    rw [hall p hp']
    simp [stripChars]
  simp [cleanAdjs, strippedStrings, hfil]
  intro p hp
  have hp' : p ∈ c.pieces := by
    simp only [removeSups] at hp
    exact List.mem_of_mem_filter hp
  rw [hall p hp']
  rfl

/-- Claim C7: a row with an empty adjective cell whose name-cell text
matches the `See <capture>` pattern yields the name-cell link text paired
with `Ref(capture)`. -/
theorem interpretRow_see_ref (c0 : Cell) (rest : List Cell) (c5 : Cell)
    (nm cap : List Char)
    (h5 : (c0 :: rest).get? 5 = some c5)
    (hempty : cellText c5 = [])
    (hlink : firstLink c0 = some nm)
    (hsee : seeSearch (cellText c0) = some cap) :
    interpretRow (c0 :: rest) = RowResult.entry nm (Val.ref cap) := by
  have h5' : rest[4]? = some c5 := by simpa using h5
  simp [interpretRow, h5', hempty, hlink, hsee, qmarkT]

/-- Claim C7 witness: the `Bull (See Cattle)` row yields
`("Bull", Ref("Cattle"))`. -/
theorem interpretRow_see_ref_witness :
    interpretRow bullRow = RowResult.entry ("Bull".data) (Val.ref ("Cattle".data)) :=
  interpretRow_see_ref bullNameCell
    [blankCell, blankCell, blankCell, blankCell, blankCell] blankCell
    ("Bull".data) ("Cattle".data) (by decide) (by decide) (by decide) (by decide)

/-- Claim C2 counterexample: a row with an empty adjective cell and no
`See` pattern is not skipped; it contributes the pair
`("Donkey", [])` to the parsed output. -/
theorem interpretRow_empty_not_skipped :
    interpretRow donkeyRow = RowResult.entry ("Donkey".data) (Val.adjs [])
    ∧ parse_species_table [donkeyRow] = some [("Donkey".data, Val.adjs [])] := by
  decide

/-- Claim C2 (amended): a row with at least six cells, a linked name
cell, an empty adjective cell, and no `See` pattern yields the pair
(name, `[]`) — an entry with an empty adjective list, not nothing. -/
theorem interpretRow_empty_noSee (c0 : Cell) (rest : List Cell) (c5 : Cell)
    (nm : List Char)
    (h5 : (c0 :: rest).get? 5 = some c5)
    (hempty : cellText c5 = [])
    (hlink : firstLink c0 = some nm)
    (hsee : seeSearch (cellText c0) = none) :
    interpretRow (c0 :: rest) = RowResult.entry nm (Val.adjs []) := by
  have hclean := cleanAdjs_of_cellText_nil hempty
  have h5' : rest[4]? = some c5 := by simpa using h5
  simp [interpretRow, h5', hempty, hlink, hsee, qmarkT, hclean]

/-- Claim C2 witness: the amended statement applied to the `Donkey`
row. -/
theorem interpretRow_empty_noSee_witness :
    interpretRow donkeyRow = RowResult.entry ("Donkey".data) (Val.adjs []) :=
  interpretRow_empty_noSee ⟨[Piece.link "Donkey".data, Piece.txt " extra".data]⟩
    [blankCell, blankCell, blankCell, blankCell, blankCell] blankCell
    ("Donkey".data) (by decide) (by decide) (by decide) (by decide)

/-- Claim C3 counterexample: a six-cell row whose adjective cell is `"?"`
and whose name cell has no link is skipped, not failed — the `"?"` check
runs before the link check. -/
theorem qmark_row_without_link_skipped :
    qmarkNoLinkRow.length = 6
    ∧ firstLink (qmarkNoLinkRow.headD blankCell) = none
    ∧ interpretRow qmarkNoLinkRow = RowResult.nothing := by decide

/-- Claim C3 (amended): the Row Interpreter fails exactly on the
non-empty rows that either have fewer than six cells, or have at least
six cells, an adjective cell other than `"?"`, and a linkless name cell;
and the empty row produces nothing. -/
theorem interpretRow_structError_iff :
    (∀ cells : List Cell, interpretRow cells = RowResult.structError ↔
      ∃ c0 rest, cells = c0 :: rest ∧
        (cells.length < 6 ∨
          ∃ c5, cells.get? 5 = some c5 ∧ cellText c5 ≠ qmarkT ∧ firstLink c0 = none))
    ∧ interpretRow [] = RowResult.nothing := by
  constructor
  · intro cells
    cases cells with
    | nil => simp [interpretRow]
    | cons c0 rest =>
      cases h5 : rest[4]? with
      | none =>
        have hlen : rest.length ≤ 4 := by
          simpa using List.getElem?_eq_none_iff.mp h5
        constructor
        · intro _
          exact ⟨c0, rest, rfl, Or.inl (by simp; omega)⟩
        · intro _
          simp [interpretRow, h5]
      | some c5 =>
        have hlen : 4 < rest.length := by
          by_contra hh
          push_neg at hh
          rw [List.getElem?_eq_none hh] at h5
          exact Option.noConfusion h5
        have hlen6 : ¬ (c0 :: rest).length < 6 := by simp; omega
        have hget : (c0 :: rest).get? 5 = some c5 := by simpa using h5
        by_cases hq : cellText c5 = qmarkT
        · rw [show interpretRow (c0 :: rest) = RowResult.nothing by
            simp [interpretRow, h5, hq]]
          constructor
          · intro h
            exact absurd h (by simp)
          · rintro ⟨c0', rest', heq, hdis⟩
            cases heq
            rcases hdis with hlt | ⟨c5', hg', hq', hl'⟩
            · exact absurd hlt hlen6
            · rw [hget] at hg'
              cases hg'
              exact absurd hq hq'
        · cases hl : firstLink c0 with
          | none =>
            constructor
            · intro _
              exact ⟨c0, rest, rfl, Or.inr ⟨c5, hget, hq, hl⟩⟩
            · intro _
              simp [interpretRow, h5, hq, hl]
          | some nm =>
            have hval : interpretRow (c0 :: rest) ≠ RowResult.structError := by
              by_cases he : cellText c5 = []
              · cases hs : seeSearch (cellText c0) <;>
                  simp [interpretRow, h5, hq, hl, he, hs, qmarkT]
              · simp [interpretRow, h5, hq, hl, he]
            constructor
            · intro h
              exact absurd h hval
            · rintro ⟨c0', rest', heq, hdis⟩
              cases heq
              rcases hdis with hlt | ⟨c5', hg', hq', hl'⟩
              · exact absurd hlt hlen6
              · rw [hl] at hl'
                exact Option.noConfusion hl'
  · rfl

/-! ### Parenthetical-stripping lemmas -/

/-- The regex `\s+\(.*\)` cannot match where no `'('` occurs. -/
theorem tryMatch_of_no_paren {cs : List Char} (h : '(' ∉ cs) :
    tryMatch cs = none := by
  unfold tryMatch
  by_cases hn : (cs.takeWhile isSpc).length = 0
  · simp [hn]
  · simp only [hn, if_false]
    cases hd : cs.drop (cs.takeWhile isSpc).length with
    | nil => simp
    | cons c rest =>
      by_cases hc : c = '('
      · exfalso
        apply h
        apply List.drop_subset (cs.takeWhile isSpc).length cs
        rw [hd, hc]
        exact List.mem_cons_self _ _
      · simp [hc]

/-- Substitution is the identity on paren-free inputs, whatever the
fuel. -/
theorem subAllF_of_no_paren :
    ∀ (fuel : Nat) (cs : List Char), '(' ∉ cs → subAllF fuel cs = cs := by
  intro fuel
  induction fuel with
  | zero => intro cs _; rfl
  | succ n ih =>
    intro cs h
    cases cs with
    | nil => rfl
    | cons c rest =>
      have hr : '(' ∉ rest := fun hm => h (List.mem_cons_of_mem _ hm)
      simp only [subAllF, tryMatch_of_no_paren h, ih rest hr]

/-- Claim C6 counterexample: the fragment `"a (b) c"` does not end in a
parenthetical suffix (its last character is not `')'`), yet the Row
Interpreter removes its inner parenthetical and yields `"a c"`. -/
theorem interpretRow_strips_inner_paren :
    interpretRow sideParenRow = RowResult.entry ("Okapi".data) (Val.adjs ["a c".data])
    ∧ ("a (b) c".data).getLast? ≠ some ')' := by decide

/-- Claim C6 (amended): on a non-`"?"`, non-empty adjective cell the Row
Interpreter strips the `<sup>` footnotes and yields the stripped
fragments in order, each cleaned by the global `\s+\(.*\)` substitution
(which removes every whitespace-preceded parenthesized stretch, not only
trailing ones, and leaves paren-free fragments unchanged); the
`bovine`/`cowish (disputed)` example yields `["bovine", "cowish"]`. -/
theorem interpretRow_cleans_fragments :
    (∀ (c0 : Cell) (rest : List Cell) (c5 : Cell) (nm : List Char),
      (c0 :: rest).get? 5 = some c5 → cellText c5 ≠ qmarkT → cellText c5 ≠ [] →
      firstLink c0 = some nm →
      interpretRow (c0 :: rest) =
        RowResult.entry nm (Val.adjs ((strippedStrings (removeSups c5)).map reSub)))
    ∧ (∀ s : List Char, '(' ∉ s → reSub s = s)
    ∧ interpretRow bovineRow =
        RowResult.entry ("Aurochs".data) (Val.adjs ["bovine".data, "cowish".data]) := by
  refine ⟨?_, ?_, by decide⟩
  · intro c0 rest c5 nm h5 hq he hlink
    have h5' : rest[4]? = some c5 := by simpa using h5
    simp [interpretRow, h5', hq, he, hlink, cleanAdjs]
  · intro s h
    exact subAllF_of_no_paren s.length s h

/-- Claim C6 witness: the amended row equation applied to the example
row, together with concrete cleanings of its two fragments. -/
theorem interpretRow_cleans_fragments_witness :
    interpretRow bovineRow =
      RowResult.entry ("Aurochs".data)
        (Val.adjs ((strippedStrings (removeSups bovineAdjCell)).map reSub))
    ∧ reSub ("cowish (disputed)".data) = "cowish".data := by
  constructor
  · exact interpretRow_cleans_fragments.1 ⟨[Piece.link "Aurochs".data]⟩
      [blankCell, blankCell, blankCell, blankCell, bovineAdjCell] bovineAdjCell
      ("Aurochs".data) (by decide) (by decide) (by decide) (by decide)
  · decide

/-- Claim C1 (code bug): on the chained-reference mapping
`{"a": Ref("b"), "b": Ref("c"), "c": ["x"]}` the resolver returns
`{"a": Ref("c"), "b": ["x"], "c": ["x"]}` — a `Ref` value survives
resolution, contradicting the zero-`Ref` post-condition (and the
function's own docstring and return type). -/
theorem resolve_refs_chain_keeps_ref :
    resolve_refs chainInput =
      [("a".data, Val.ref "c".data), ("b".data, Val.adjs ["x".data]),
       ("c".data, Val.adjs ["x".data])]
    ∧ ("a".data, Val.ref "c".data) ∈ resolve_refs chainInput
    ∧ (resolve_refs chainInput).any (fun kv => kv.2.isRef) = true := by decide

/-! ### Dict lemmas -/

/-- A key reads as `none` exactly when it is absent. -/
theorem dictGet_eq_none_iff {α β : Type} [DecidableEq α] (l : List (α × β)) (a : α) :
    dictGet l a = none ↔ a ∉ l.map Prod.fst := by
  induction l with
  | nil => simp [dictGet]
  | cons kv rest ih =>
    obtain ⟨k, v⟩ := kv
    simp only [dictGet, List.map_cons, List.mem_cons]
    by_cases h : k = a
    · subst h
      simp
    · simp only [if_neg h, ih]
      constructor
      · intro hna hmem
        rcases hmem with heq | hm
        · exact h heq.symm
        · exact hna hm
      · intro hna hm
        exact hna (Or.inr hm)

/-- Under unique keys, a present entry is what the dict reads back. -/
theorem dictGet_of_mem_nodup {α β : Type} [DecidableEq α]
    {l : List (α × β)} {k : α} {v : β}
    (hnd : (l.map Prod.fst).Nodup) (hm : (k, v) ∈ l) : dictGet l k = some v := by
  induction l with
  | nil => cases hm
  | cons kv rest ih =>
    obtain ⟨k', v'⟩ := kv
    rcases List.mem_cons.mp hm with heq | hm'
    · cases heq
      simp [dictGet]
    · have hk : k' ≠ k := by
        intro hh
        subst hh
        exact (List.nodup_cons.mp hnd).1 (List.mem_map.mpr ⟨(k', v), hm', rfl⟩)
      simp [dictGet, hk, ih (List.nodup_cons.mp hnd).2 hm']

/-- Under unique keys, two entries at one key carry one value. -/
theorem nodup_key_value_unique {α β : Type} [DecidableEq α]
    {l : List (α × β)} {k : α} {v1 v2 : β}
    (hnd : (l.map Prod.fst).Nodup) (h1 : (k, v1) ∈ l) (h2 : (k, v2) ∈ l) :
    v1 = v2 := by
  have e1 := dictGet_of_mem_nodup hnd h1
  have e2 := dictGet_of_mem_nodup hnd h2
  rw [e1] at e2
  exact (Option.some.injEq .. ▸ e2).symm ▸ rfl

/-- Setting preserves every present key. -/
theorem mem_keys_dictSet {α β : Type} [DecidableEq α]
    {l : List (α × β)} {x k : α} (v : β)
    (hx : x ∈ l.map Prod.fst) : x ∈ (dictSet l k v).map Prod.fst := by
  induction l with
  | nil => cases hx
  | cons kv rest ih =>
    obtain ⟨k', v'⟩ := kv
    by_cases h : k' = k
    · simpa [dictSet, h] using hx
    · rcases List.mem_cons.mp hx with heq | hm
      · simp [dictSet, h, heq]
      · simp [dictSet, h, ih hm]

/-- Every key of a set dict is an old key or the set key. -/
theorem keys_dictSet_cases {α β : Type} [DecidableEq α]
    {l : List (α × β)} {x k : α} {v : β}
    (hx : x ∈ (dictSet l k v).map Prod.fst) : x ∈ l.map Prod.fst ∨ x = k := by
  induction l with
  | nil =>
    simp [dictSet] at hx
    exact Or.inr hx
  | cons kv rest ih =>
    obtain ⟨k', v'⟩ := kv
    by_cases h : k' = k
    · simp only [dictSet, if_pos h] at hx
      exact Or.inl (by simpa using hx)
    · simp only [dictSet, if_neg h, List.map_cons, List.mem_cons] at hx
      rcases hx with heq | hm
      · exact Or.inl (by simp [heq])
      · rcases ih hm with hh | hh
        · exact Or.inl (by simp [hh])
        · exact Or.inr hh

/-- Deleting can only lose keys. -/
theorem keys_dictDel_subset {α β : Type} [DecidableEq α]
    {l : List (α × β)} {x k : α}
    (hx : x ∈ (dictDel l k).map Prod.fst) : x ∈ l.map Prod.fst := by
  induction l with
  | nil => cases hx
  | cons kv rest ih =>
    obtain ⟨k', v'⟩ := kv
    by_cases h : k' = k
    · simp only [dictDel, if_pos h] at hx
      exact List.mem_cons_of_mem _ hx
    · simp only [dictDel, if_neg h, List.map_cons, List.mem_cons] at hx
      rcases hx with heq | hm
      · exact List.mem_cons.mpr (Or.inl heq)
      · exact List.mem_cons_of_mem _ (ih hm)

/-- Deleting preserves every other key. -/
theorem mem_keys_dictDel {α β : Type} [DecidableEq α]
    {l : List (α × β)} {x k : α}
    (hne : x ≠ k) (hx : x ∈ l.map Prod.fst) : x ∈ (dictDel l k).map Prod.fst := by
  induction l with
  | nil => cases hx
  | cons kv rest ih =>
    obtain ⟨k', v'⟩ := kv
    rcases List.mem_cons.mp hx with heq | hm
    · have h : k' ≠ k := by
        intro hh
        exact hne (heq.trans hh)
      simp [dictDel, h, heq]
    · by_cases h : k' = k
      · simpa [dictDel, h] using hm
      · simp [dictDel, h, ih hm]

/-- Under unique keys, deleting a key removes it. -/
theorem not_mem_keys_dictDel {α β : Type} [DecidableEq α]
    {l : List (α × β)} {k : α}
    (hnd : (l.map Prod.fst).Nodup) : k ∉ (dictDel l k).map Prod.fst := by
  induction l with
  | nil => simp [dictDel]
  | cons kv rest ih =>
    obtain ⟨k', v'⟩ := kv
    by_cases h : k' = k
    · subst h
      simp only [dictDel, if_pos rfl]
      exact (List.nodup_cons.mp hnd).1
    · simp only [dictDel, if_neg h, List.map_cons, List.mem_cons]
      intro hcon
      rcases hcon with heq | hm
      · exact h heq.symm
      · exact ih (List.nodup_cons.mp hnd).2 hm

/-- Setting keeps the keys duplicate-free. -/
theorem nodup_keys_dictSet {α β : Type} [DecidableEq α]
    {l : List (α × β)} {k : α} {v : β}
    (hnd : (l.map Prod.fst).Nodup) : ((dictSet l k v).map Prod.fst).Nodup := by
  induction l with
  | nil => simp [dictSet]
  | cons kv rest ih =>
    obtain ⟨k', v'⟩ := kv
    by_cases h : k' = k
    · simpa [dictSet, h] using hnd
    · simp only [dictSet, if_neg h, List.map_cons, List.nodup_cons]
      obtain ⟨hn1, hn2⟩ := List.nodup_cons.mp hnd
      refine ⟨?_, ih hn2⟩
      intro hcon
      rcases keys_dictSet_cases hcon with hm | heq
      · exact hn1 hm
      · exact h heq

/-- Deleting keeps the keys duplicate-free. -/
theorem nodup_keys_dictDel {α β : Type} [DecidableEq α]
    {l : List (α × β)} {k : α}
    (hnd : (l.map Prod.fst).Nodup) : ((dictDel l k).map Prod.fst).Nodup := by
  induction l with
  | nil => simp [dictDel]
  | cons kv rest ih =>
    obtain ⟨k', v'⟩ := kv
    obtain ⟨hn1, hn2⟩ := List.nodup_cons.mp hnd
    by_cases h : k' = k
    · simpa [dictDel, h] using hn2
    · simp only [dictDel, if_neg h, List.map_cons, List.nodup_cons]
      refine ⟨?_, ih hn2⟩
      intro hcon
      exact hn1 (keys_dictDel_subset hcon)

/-! ### Resolution-loop invariants -/

/-- One resolution step can only produce old keys or its own key. -/
theorem keys_refStep_cases {cas : List (List Char × Val)} {q : List Char × Val}
    {x : List Char}
    (h : x ∈ (refStep cas q).map Prod.fst) : x ∈ cas.map Prod.fst ∨ x = q.1 := by
  obtain ⟨k, v⟩ := q
  cases v with
  | adjs l =>
    simp only [refStep] at h
    exact Or.inl h
  | ref r =>
    simp only [refStep] at h
    cases hg : dictGet cas r with
    | some v2 =>
      rw [hg] at h
      exact keys_dictSet_cases h
    | none =>
      rw [hg] at h
      exact Or.inl (keys_dictDel_subset h)

/-- One resolution step preserves every key other than its own. -/
theorem mem_keys_refStep {cas : List (List Char × Val)} {q : List Char × Val}
    {x : List Char}
    (hne : x ≠ q.1) (hx : x ∈ cas.map Prod.fst) :
    x ∈ (refStep cas q).map Prod.fst := by
  obtain ⟨k, v⟩ := q
  cases v with
  | adjs l =>
    simp only [refStep]
    exact hx
  | ref r =>
    simp only [refStep]
    cases hg : dictGet cas r with
    | some v2 => exact mem_keys_dictSet v2 hx
    | none => exact mem_keys_dictDel hne hx

/-- One resolution step keeps the keys duplicate-free. -/
theorem nodup_keys_refStep {cas : List (List Char × Val)} {q : List Char × Val}
    (hnd : (cas.map Prod.fst).Nodup) : ((refStep cas q).map Prod.fst).Nodup := by
  obtain ⟨k, v⟩ := q
  cases v with
  | adjs l => simpa [refStep] using hnd
  | ref r =>
    simp only [refStep]
    cases hg : dictGet cas r with
    | some v2 => exact nodup_keys_dictSet hnd
    | none => exact nodup_keys_dictDel hnd

/-- Keys of the folded loop come from the start dict or the processed
entries. -/
theorem keys_foldl_refStep_cases :
    ∀ (ps : List (List Char × Val)) (cas : List (List Char × Val)) (x : List Char),
      x ∈ (ps.foldl refStep cas).map Prod.fst →
      x ∈ cas.map Prod.fst ∨ x ∈ ps.map Prod.fst := by
  intro ps
  induction ps with
  | nil =>
    intro cas x h
    exact Or.inl h
  | cons q ps ih =>
    intro cas x h
    rcases ih (refStep cas q) x h with hh | hh
    · rcases keys_refStep_cases hh with h1 | h1
      · exact Or.inl h1
      · exact Or.inr (by
          rw [List.map_cons]
          exact List.mem_cons.mpr (Or.inl h1))
    · exact Or.inr (List.mem_cons_of_mem _ hh)

/-- A key no processed entry owns survives the folded loop. -/
theorem mem_keys_foldl_refStep :
    ∀ (ps : List (List Char × Val)) (cas : List (List Char × Val)) (x : List Char),
      x ∈ cas.map Prod.fst → (∀ q ∈ ps, q.1 ≠ x) →
      x ∈ (ps.foldl refStep cas).map Prod.fst := by
  intro ps
  induction ps with
  | nil =>
    intro cas x hx _
    exact hx
  | cons q ps ih =>
    intro cas x hx hne
    apply ih (refStep cas q) x
    · exact mem_keys_refStep (fun hh => hne q (List.mem_cons_self _ _) hh.symm) hx
    · intro p hp
      exact hne p (List.mem_cons_of_mem _ hp)

/-- A key absent from the dict and owned by no processed entry stays
absent. -/
theorem not_mem_keys_foldl_refStep :
    ∀ (ps : List (List Char × Val)) (cas : List (List Char × Val)) (x : List Char),
      x ∉ cas.map Prod.fst → (∀ q ∈ ps, q.1 ≠ x) →
      x ∉ (ps.foldl refStep cas).map Prod.fst := by
  intro ps cas x hx hne hcon
  rcases keys_foldl_refStep_cases ps cas x hcon with h | h
  · exact hx h
  · obtain ⟨q, hq, rfl⟩ := List.mem_map.mp h
    exact hne q hq rfl

/-- The folded loop keeps the keys duplicate-free. -/
theorem nodup_keys_foldl_refStep :
    ∀ (ps : List (List Char × Val)) (cas : List (List Char × Val)),
      (cas.map Prod.fst).Nodup → ((ps.foldl refStep cas).map Prod.fst).Nodup := by
  intro ps
  induction ps with
  | nil =>
    intro cas h
    exact h
  | cons q ps ih =>
    intro cas h
    exact ih (refStep cas q) (nodup_keys_refStep h)

/-- Claim C8: `resolve_refs` is the identity on `Ref`-free mappings. -/
theorem resolve_refs_identity (d : List (List Char × Val))
    (h : ∀ kv ∈ d, kv.2.isRef = false) : resolve_refs d = d := by
  unfold resolve_refs
  have hnil : d.filter (fun kv => kv.2.isRef) = [] := by
    apply List.filter_eq_nil_iff.mpr
    intro kv hm
    simp [h kv hm]
  rw [hnil]
  rfl

/-- Claim C8 witness: the spec example `resolve({"a": ["x"]})`. -/
theorem resolve_refs_identity_witness :
    resolve_refs [("a".data, Val.adjs ["x".data])] = [("a".data, Val.adjs ["x".data])] :=
  resolve_refs_identity _ (by decide)

/-- Claim C10: resolution never invents a key, and every key holding an
adjective list in the input is still a key of the result. -/
theorem resolve_refs_keys (d : List (List Char × Val)) :
    ((resolve_refs d).map Prod.fst ⊆ d.map Prod.fst)
    ∧ ((d.map Prod.fst).Nodup →
        ∀ k l, (k, Val.adjs l) ∈ d → k ∈ (resolve_refs d).map Prod.fst) := by
  constructor
  · intro x hx
    unfold resolve_refs at hx
    rcases keys_foldl_refStep_cases _ _ _ hx with h | h
    · exact h
    · obtain ⟨q, hq, rfl⟩ := List.mem_map.mp h
      exact List.mem_map.mpr ⟨q, List.mem_of_mem_filter hq, rfl⟩
  · intro hnd k l hm
    unfold resolve_refs
    apply mem_keys_foldl_refStep
    · exact List.mem_map.mpr ⟨(k, Val.adjs l), hm, rfl⟩
    · intro q hq hqk
      have hqd : q ∈ d := List.mem_of_mem_filter hq
      have hqr : q.2.isRef = true := by
        simpa using List.of_mem_filter hq
      have hqv : q.2 = Val.adjs l := by
        have : (q.1, q.2) ∈ d := by simpa using hqd
        rw [hqk] at this
        exact nodup_key_value_unique hnd this hm
      rw [hqv] at hqr
      exact Bool.noConfusion hqr

/-- Claim C10 witness: the adjective-list key `"a"` survives resolving
`{"a": ["x"], "b": Ref("a")}`. -/
theorem resolve_refs_keys_witness :
    "a".data ∈ (resolve_refs
      [("a".data, Val.adjs ["x".data]), ("b".data, Val.ref "a".data)]).map Prod.fst :=
  (resolve_refs_keys _).2 (by decide) ("a".data) ["x".data] (by decide)

/-- Claim C4: an entry whose `Ref` points at a key that is not in the
mapping is dropped: its key is absent from the result. -/
theorem resolve_refs_drops_missing (d : List (List Char × Val))
    (k r : List Char) (hnd : (d.map Prod.fst).Nodup)
    (hm : (k, Val.ref r) ∈ d) (hr : r ∉ d.map Prod.fst) :
    k ∉ (resolve_refs d).map Prod.fst := by
  unfold resolve_refs
  have hmr : (k, Val.ref r) ∈ d.filter (fun kv => kv.2.isRef) :=
    List.mem_filter.mpr ⟨hm, rfl⟩
  obtain ⟨l₁, l₂, hsplit⟩ := List.append_of_mem hmr
  rw [hsplit, List.foldl_append, List.foldl_cons]
  have hsub1 : ∀ x ∈ l₁.map Prod.fst, x ∈ d.map Prod.fst := by
    intro x hx
    obtain ⟨q, hq, rfl⟩ := List.mem_map.mp hx
    have hqf : q ∈ d.filter (fun kv => kv.2.isRef) := by
      rw [hsplit]
      exact List.mem_append_left _ hq
    exact List.mem_map.mpr ⟨q, List.mem_of_mem_filter hqf, rfl⟩
  have hget : dictGet (l₁.foldl refStep d) r = none := by
    rw [dictGet_eq_none_iff]
    intro hcon
    rcases keys_foldl_refStep_cases l₁ d r hcon with h | h
    · exact hr h
    · exact hr (hsub1 r h)
  have hstep : refStep (l₁.foldl refStep d) (k, Val.ref r)
      = dictDel (l₁.foldl refStep d) k := by
    simp only [refStep, hget]
  rw [hstep]
  have hnd1 : ((l₁.foldl refStep d).map Prod.fst).Nodup :=
    nodup_keys_foldl_refStep l₁ d hnd
  have hndrefs : ((d.filter (fun kv => kv.2.isRef)).map Prod.fst).Nodup :=
    ((List.filter_sublist d).map Prod.fst).nodup hnd
  have hk2 : k ∉ l₂.map Prod.fst := by
    rw [hsplit] at hndrefs
    simp only [List.map_append, List.map_cons] at hndrefs
    have := (List.Nodup.of_append_right hndrefs)
    exact (List.nodup_cons.mp this).1
  apply not_mem_keys_foldl_refStep
  · exact not_mem_keys_dictDel hnd1
  · intro q hq hqk
    exact hk2 (List.mem_map.mpr ⟨q, hq, hqk⟩)

/-- Claim C4 witness: `resolve({"b": Ref("missing")})` yields the empty
mapping, and in particular `"b"` is gone. -/
theorem resolve_refs_drops_missing_witness :
    resolve_refs [("b".data, Val.ref "missing".data)] = []
    ∧ "b".data ∉ (resolve_refs [("b".data, Val.ref "missing".data)]).map Prod.fst :=
  ⟨by decide,
   resolve_refs_drops_missing _ ("b".data) ("missing".data)
     (by decide) (by decide) (by decide)⟩

/-! ### Deep-copy frame lemmas -/

/-- Deep copy only appends fresh cells to the heap. -/
theorem deepcopy_cells_extends :
    ∀ (d : List (List Char × HVal)) (h : Heap),
      ∃ ext, (deepcopyEntries h d).1.cells = h.cells ++ ext := by
  intro d
  induction d with
  | nil =>
    intro h
    exact ⟨[], by simp [deepcopyEntries]⟩
  | cons kv rest ih =>
    intro h
    obtain ⟨k, v⟩ := kv
    cases v with
    | addr a =>
      obtain ⟨ext, hext⟩ := ih ⟨h.cells ++ [getCell h a]⟩
      exact ⟨[getCell h a] ++ ext, by simp [deepcopyEntries, hext]⟩
    | ref r =>
      obtain ⟨ext, hext⟩ := ih h
      exact ⟨ext, by simp [deepcopyEntries, hext]⟩

/-- A pre-existing cell reads the same after the deep copy. -/
theorem getCell_deepcopy (h : Heap) (d : List (List Char × HVal)) (a : Nat)
    (ha : a < h.cells.length) :
    getCell (deepcopyEntries h d).1 a = getCell h a := by
  obtain ⟨ext, hext⟩ := deepcopy_cells_extends d h
  unfold getCell
  rw [hext]
  exact List.getD_append _ _ _ _ ha

/-- Claim C9: `resolve_refs` leaves the caller's dict untouched — every
pre-existing heap cell is unchanged, so the caller's mapping observes
exactly the keys and values it held before the call. -/
theorem resolve_refs_heap_frame (h : Heap) (d : List (List Char × HVal))
    (hv : ∀ kv ∈ d, kv.2.validIn h.cells.length = true) :
    (∀ a, a < h.cells.length →
      getCell (resolve_refs_heap h d).1 a = getCell h a)
    ∧ observeDict (resolve_refs_heap h d).1 d = observeDict h d := by
  have h1 : (resolve_refs_heap h d).1 = (deepcopyEntries h d).1 := rfl
  constructor
  · intro a ha
    rw [h1]
    exact getCell_deepcopy h d a ha
  · rw [h1]
    unfold observeDict
    apply List.map_congr_left
    intro kv hm
    obtain ⟨k, v⟩ := kv
    cases v with
    | ref r => rfl
    | addr a =>
      have hval := hv (k, HVal.addr a) hm
      simp only [HVal.validIn] at hval
      have ha : a < h.cells.length := of_decide_eq_true hval
      simp [observe, getCell_deepcopy h d a ha]

/-- Claim C9 witness: a one-cell heap with an aliased reference entry. -/
theorem resolve_refs_heap_frame_witness :
    getCell (resolve_refs_heap ⟨[["hello".data]]⟩
      [("a".data, HVal.addr 0), ("b".data, HVal.ref "a".data)]).1 0
      = getCell ⟨[["hello".data]]⟩ 0
    ∧ observeDict (resolve_refs_heap ⟨[["hello".data]]⟩
        [("a".data, HVal.addr 0), ("b".data, HVal.ref "a".data)]).1
        [("a".data, HVal.addr 0), ("b".data, HVal.ref "a".data)]
      = observeDict ⟨[["hello".data]]⟩
        [("a".data, HVal.addr 0), ("b".data, HVal.ref "a".data)] :=
  ⟨(resolve_refs_heap_frame ⟨[["hello".data]]⟩
      [("a".data, HVal.addr 0), ("b".data, HVal.ref "a".data)] (by decide)).1 0
      (by decide),
   (resolve_refs_heap_frame ⟨[["hello".data]]⟩
      [("a".data, HVal.addr 0), ("b".data, HVal.ref "a".data)] (by decide)).2⟩

/-! ### Inversion lemmas -/

/-- Reading a bucket after one `setdefault`-append. -/
theorem appendAt_get {T U : Type} [DecidableEq U]
    (r : List (U × List T)) (u : U) (t : T) (v : U) :
    dictGet (appendAt r u t) v =
      if v = u then some ((dictGet r v).getD [] ++ [t]) else dictGet r v := by
  induction r with
  | nil =>
    by_cases hv : v = u
    · subst hv
      simp [appendAt, dictGet]
    · have hvu : ¬ u = v := fun hh => hv hh.symm
      simp [appendAt, dictGet, hv, hvu]
  | cons q rest ih =>
    obtain ⟨u', ts⟩ := q
    by_cases h : u' = u
    · subst h
      by_cases hv : v = u'
      · subst hv
        simp [appendAt, dictGet]
      · have hvu : ¬ u' = v := fun hh => hv hh.symm
        simp [appendAt, dictGet, hv, hvu]
    · by_cases hv : u' = v
      · subst hv
        simp [appendAt, dictGet, h]
      · simp [appendAt, dictGet, h, hv, ih]

/-- Keys after one `setdefault`-append: first-seen accumulation. -/
theorem appendAt_keys {T U : Type} [DecidableEq U]
    (r : List (U × List T)) (u : U) (t : T) :
    (appendAt r u t).map Prod.fst = fsAdd (r.map Prod.fst) u := by
  induction r with
  | nil => simp [appendAt, fsAdd]
  | cons q rest ih =>
    obtain ⟨u', ts⟩ := q
    by_cases h : u' = u
    · subst h
      simp [appendAt, fsAdd]
    · have hne : ¬ u = u' := fun hh => h hh.symm
      simp only [appendAt, if_neg h, List.map_cons, ih, fsAdd, List.mem_cons]
      by_cases hm : u ∈ rest.map Prod.fst
      · simp [hm, hne]
      · simp [hm, hne]

/-- The double loop of `invert` equals a single fold over the insertion
stream. -/
theorem invert_eq_foldl_pairs {T U : Type} [DecidableEq U]
    (index : List (T × List U)) :
    invert index =
      (insertionPairs index).foldl (fun r q => appendAt r q.1 q.2) [] := by
  suffices h : ∀ (idx : List (T × List U)) (r : List (U × List T)),
      idx.foldl (fun result p => p.2.foldl (fun acc u => appendAt acc u p.1) result) r
        = (insertionPairs idx).foldl (fun r q => appendAt r q.1 q.2) r by
    exact h index []
  intro idx
  induction idx with
  | nil =>
    intro r
    rfl
  | cons p ps ih =>
    intro r
    simp only [List.foldl_cons, insertionPairs, List.flatMap_cons, List.foldl_append]
    rw [List.foldl_map]
    exact ih _

/-- The `t`-values inserted into bucket `v`, in stream order. -/
def addsFor {T U : Type} [DecidableEq U] (v : U) (ps : List (U × T)) : List T :=
  (ps.filter (fun q => q.1 = v)).map Prod.snd

/-- A bucket already present only accumulates its stream of values. -/
theorem dictGet_foldl_appendAt_of_some {T U : Type} [DecidableEq U] :
    ∀ (ps : List (U × T)) (r : List (U × List T)) (v : U) (b : List T),
      dictGet r v = some b →
      dictGet (ps.foldl (fun acc q => appendAt acc q.1 q.2) r) v
        = some (b ++ addsFor v ps) := by
  intro ps
  induction ps with
  | nil =>
    intro r v b hb
    simpa [addsFor] using hb
  | cons q ps ih =>
    intro r v b hb
    rw [List.foldl_cons]
    by_cases hv : v = q.1
    · have hget : dictGet (appendAt r q.1 q.2) v = some (b ++ [q.2]) := by
        rw [appendAt_get, if_pos hv, hb]
        rfl
      rw [ih _ v _ hget]
      have hadds : addsFor v (q :: ps) = q.2 :: addsFor v ps := by
        simp [addsFor, List.filter_cons, hv.symm]
      rw [hadds, List.append_assoc]
      rfl
    · have hget : dictGet (appendAt r q.1 q.2) v = some b := by
        rw [appendAt_get, if_neg hv, hb]
      rw [ih _ v _ hget]
      have hqv : ¬ q.1 = v := fun hh => hv hh.symm
      have hadds : addsFor v (q :: ps) = addsFor v ps := by
        simp [addsFor, List.filter_cons, hqv]
      rw [hadds]

/-- A bucket not yet present holds exactly its stream of values (or
stays absent when the stream is empty). -/
theorem dictGet_foldl_appendAt_of_none {T U : Type} [DecidableEq U] :
    ∀ (ps : List (U × T)) (r : List (U × List T)) (v : U),
      dictGet r v = none →
      dictGet (ps.foldl (fun acc q => appendAt acc q.1 q.2) r) v
        = if (addsFor v ps).isEmpty then none else some (addsFor v ps) := by
  intro ps
  induction ps with
  | nil =>
    intro r v hb
    simpa [addsFor] using hb
  | cons q ps ih =>
    intro r v hb
    rw [List.foldl_cons]
    by_cases hv : v = q.1
    · have hget : dictGet (appendAt r q.1 q.2) v = some [q.2] := by
        rw [appendAt_get, if_pos hv, hb]
        rfl
      rw [dictGet_foldl_appendAt_of_some ps _ v _ hget]
      have hadds : addsFor v (q :: ps) = q.2 :: addsFor v ps := by
        simp [addsFor, List.filter_cons, hv.symm]
      simp [hadds]
    · have hget : dictGet (appendAt r q.1 q.2) v = none := by
        rw [appendAt_get, if_neg hv, hb]
      rw [ih _ v hget]
      have hqv : ¬ q.1 = v := fun hh => hv hh.symm
      have hadds : addsFor v (q :: ps) = addsFor v ps := by
        simp [addsFor, List.filter_cons, hqv]
      rw [hadds]

/-- Keys of the folded inversion: first-seen accumulation over the
stream. -/
theorem keys_foldl_appendAt {T U : Type} [DecidableEq U] :
    ∀ (ps : List (U × T)) (r : List (U × List T)),
      (ps.foldl (fun acc q => appendAt acc q.1 q.2) r).map Prod.fst
        = (ps.map Prod.fst).foldl fsAdd (r.map Prod.fst) := by
  intro ps
  induction ps with
  | nil =>
    intro r
    rfl
  | cons q ps ih =>
    intro r
    rw [List.foldl_cons, ih, List.map_cons, List.foldl_cons, appendAt_keys]

/-- Membership in a first-seen accumulation step. -/
theorem mem_fsAdd {α : Type} [DecidableEq α] (acc : List α) (x y : α) :
    x ∈ fsAdd acc y ↔ x ∈ acc ∨ x = y := by
  unfold fsAdd
  by_cases h : y ∈ acc
  · simp only [if_pos h]
    constructor
    · exact Or.inl
    · intro hh
      rcases hh with hh | hh
      · exact hh
      · exact hh ▸ h
  · simp [if_neg h]

/-- Membership in a first-seen fold. -/
theorem mem_foldl_fsAdd {α : Type} [DecidableEq α] :
    ∀ (l acc : List α) (x : α), x ∈ l.foldl fsAdd acc ↔ x ∈ acc ∨ x ∈ l := by
  intro l
  induction l with
  | nil =>
    intro acc x
    simp
  | cons y l ih =>
    intro acc x
    rw [List.foldl_cons, ih, mem_fsAdd]
    constructor
    · intro hh
      rcases hh with (hh | hh) | hh
      · exact Or.inl hh
      · exact Or.inr (by simp [hh])
      · exact Or.inr (List.mem_cons_of_mem _ hh)
    · intro hh
      rcases hh with hh | hh
      · exact Or.inl (Or.inl hh)
      · rcases List.mem_cons.mp hh with hh | hh
        · exact Or.inl (Or.inr hh)
        · exact Or.inr hh

/-- A first-seen fold of a duplicate-free accumulator stays
duplicate-free. -/
theorem nodup_foldl_fsAdd {α : Type} [DecidableEq α] :
    ∀ (l acc : List α), acc.Nodup → (l.foldl fsAdd acc).Nodup := by
  intro l
  induction l with
  | nil =>
    intro acc h
    exact h
  | cons y l ih =>
    intro acc h
    rw [List.foldl_cons]
    apply ih
    unfold fsAdd
    by_cases hm : y ∈ acc
    · simpa [hm] using h
    · rw [if_neg hm]
      rw [List.nodup_append]
      refine ⟨h, List.nodup_singleton y, ?_⟩
      intro a ha hb
      rw [List.mem_singleton] at hb
      exact hm (hb ▸ ha)

/-- Keys of the insertion stream are exactly the concatenated value
lists. -/
theorem map_fst_insertionPairs {T U : Type} (index : List (T × List U)) :
    (insertionPairs index).map Prod.fst = index.flatMap (fun p => p.2) := by
  induction index with
  | nil => rfl
  | cons p ps ih =>
    have h1 : insertionPairs (p :: ps)
        = (p.2.map fun u => (u, p.1)) ++ insertionPairs ps := rfl
    rw [h1, List.map_append, ih, List.map_map]
    have h2 : p.2.map (Prod.fst ∘ fun u => (u, p.1)) = p.2 := by
      rw [show (Prod.fst ∘ fun u => (u, p.1)) = id from rfl, List.map_id]
    rw [h2]
    rfl

/-- The stream for one bucket splits over concatenation. -/
theorem addsFor_append {T U : Type} [DecidableEq U] (v : U)
    (a b : List (U × T)) :
    addsFor v (a ++ b) = addsFor v a ++ addsFor v b := by
  simp [addsFor, List.filter_append]

/-- The stream one row contributes to one bucket. -/
theorem addsFor_map_pair {T U : Type} [DecidableEq U] (v : U) (t : T)
    (us : List U) :
    addsFor v (us.map (fun u => (u, t)))
      = (us.filter (fun u => u = v)).map (fun _ => t) := by
  rw [addsFor, List.filter_map, List.map_map]
  rfl

/-- Bucket contents read off the insertion stream agree with the
declarative per-bucket description. -/
theorem addsFor_insertionPairs {T U : Type} [DecidableEq U]
    (index : List (T × List U)) (v : U) :
    addsFor v (insertionPairs index) = bucketSpec index v := by
  induction index with
  | nil => rfl
  | cons p ps ih =>
    have h1 : insertionPairs (p :: ps)
        = (p.2.map fun u => (u, p.1)) ++ insertionPairs ps := rfl
    rw [h1, addsFor_append, addsFor_map_pair, ih]
    rfl

/-- The stream for bucket `v` is empty exactly when `v` never occurs in
a value list. -/
theorem addsFor_isEmpty_iff {T U : Type} [DecidableEq U]
    (index : List (T × List U)) (v : U) :
    (addsFor v (insertionPairs index)).isEmpty = true ↔
      v ∉ index.flatMap (fun p => p.2) := by
  rw [List.isEmpty_iff]
  rw [← map_fst_insertionPairs]
  unfold addsFor
  constructor
  · intro h hmem
    obtain ⟨q, hq, hqv⟩ := List.mem_map.mp hmem
    have hqf : q ∈ (insertionPairs index).filter (fun q => q.1 = v) :=
      List.mem_filter.mpr ⟨hq, by simp [hqv]⟩
    rw [List.map_eq_nil_iff.mp h] at hqf
    cases hqf
  · intro h
    apply List.map_eq_nil_iff.mpr
    apply List.filter_eq_nil_iff.mpr
    intro q hq hcon
    apply h
    have hqv : q.1 = v := by simpa using hcon
    exact hqv ▸ List.mem_map.mpr ⟨q, hq, rfl⟩

/-- Reading a mapping built by pairing keys with computed values. -/
theorem dictGet_map_pair {T U : Type} [DecidableEq U] :
    ∀ (keys : List U) (f : U → List T) (v : U),
      dictGet (keys.map (fun u => (u, f u))) v =
        if v ∈ keys then some (f v) else none := by
  intro keys
  induction keys with
  | nil =>
    intro f v
    simp [dictGet]
  | cons k ks ih =>
    intro f v
    by_cases h : k = v
    · subst h
      simp [dictGet]
    · have hvk : ¬ v = k := fun hh => h hh.symm
      simp [dictGet, h, ih, hvk]

/-- Two association lists with the same key sequence, duplicate-free
keys, and the same reads are equal. -/
theorem assoc_keys_get_ext {U β : Type} [DecidableEq U] :
    ∀ (l₁ l₂ : List (U × β)), l₁.map Prod.fst = l₂.map Prod.fst →
      (l₁.map Prod.fst).Nodup → (∀ k, dictGet l₁ k = dictGet l₂ k) →
      l₁ = l₂ := by
  intro l₁
  induction l₁ with
  | nil =>
    intro l₂ hk _ _
    cases l₂ with
    | nil => rfl
    | cons q l => simp at hk
  | cons q l ih =>
    intro l₂ hk hnd hg
    cases l₂ with
    | nil => simp at hk
    | cons q' l' =>
      obtain ⟨k, v⟩ := q
      obtain ⟨k', v'⟩ := q'
      simp only [List.map_cons, List.cons.injEq] at hk
      obtain ⟨hk1, hk2⟩ := hk
      subst hk1
      have hv : v = v' := by
        have hgk := hg k
        simpa [dictGet] using hgk
      subst hv
      have hknotin : k ∉ l.map Prod.fst := (List.nodup_cons.mp hnd).1
      have htail : l = l' := by
        apply ih l' hk2 (List.nodup_cons.mp hnd).2
        intro x
        by_cases hx : x = k
        · subst hx
          have h1 : dictGet l x = none := (dictGet_eq_none_iff l x).mpr hknotin
          have h2 : dictGet l' x = none :=
            (dictGet_eq_none_iff l' x).mpr (hk2 ▸ hknotin)
          rw [h1, h2]
        · have hgx := hg x
          have hkx : ¬ k = x := fun hh => hx hh.symm
          simpa [dictGet, hkx] using hgx
      rw [htail]

/-- Claim C5: `invert` builds exactly the declarative inverted index —
buckets in first-seen order of the values, each bucket listing the keys
in iteration order, once per occurrence, with no deduplication — and
the spec example inverts as stated. -/
theorem invert_matches_spec :
    (∀ (T U : Type) (instU : DecidableEq U) (index : List (T × List U)),
        invert index = invertSpec index)
    ∧ invert [("a", ["x", "y"]), ("b", ["x"])]
        = [("x", ["a", "b"]), ("y", ["a"])] := by
  constructor
  · intro T U instU index
    have hkinv : (invert index).map Prod.fst
        = firstSeen (index.flatMap (fun p => p.2)) := by
      rw [invert_eq_foldl_pairs, keys_foldl_appendAt, map_fst_insertionPairs]
      rfl
    have hkspec : (invertSpec index).map Prod.fst
        = firstSeen (index.flatMap (fun p => p.2)) := by
      unfold invertSpec
      rw [List.map_map]
      rw [show (Prod.fst ∘ fun v => (v, bucketSpec index v)) = id from rfl,
        List.map_id]
    apply assoc_keys_get_ext
    · rw [hkinv, hkspec]
    · rw [hkinv]
      exact nodup_foldl_fsAdd _ [] List.nodup_nil
    · intro k
      have hinv : dictGet (invert index) k
          = if (addsFor k (insertionPairs index)).isEmpty then none
            else some (addsFor k (insertionPairs index)) := by
        rw [invert_eq_foldl_pairs]
        exact dictGet_foldl_appendAt_of_none _ [] k rfl
      rw [hinv]
      unfold invertSpec
      rw [dictGet_map_pair]
      by_cases hm : k ∈ index.flatMap (fun p => p.2)
      · have hne : ¬ (addsFor k (insertionPairs index)).isEmpty = true := by
          rw [addsFor_isEmpty_iff]
          exact fun hcon => hcon hm
        have hmem : k ∈ firstSeen (index.flatMap (fun p => p.2)) :=
          (mem_foldl_fsAdd _ [] k).mpr (Or.inr hm)
        rw [if_neg hne, if_pos hmem, addsFor_insertionPairs]
      · have he : (addsFor k (insertionPairs index)).isEmpty = true :=
          (addsFor_isEmpty_iff index k).mpr hm
        have hmem : k ∉ firstSeen (index.flatMap (fun p => p.2)) := by
          intro hcon
          rcases (mem_foldl_fsAdd _ [] k).mp hcon with h | h
          · cases h
          · exact hm h
        rw [if_pos he, if_neg hmem]
  · decide

/-- Claim C3 witness: the failure characterization applied to a concrete
five-cell row, which indeed fails. -/
theorem interpretRow_structError_iff_witness :
    interpretRow [blankCell, blankCell, blankCell, blankCell, blankCell]
      = RowResult.structError :=
  (interpretRow_structError_iff.1 _).mpr
    ⟨blankCell, [blankCell, blankCell, blankCell, blankCell], rfl,
      Or.inl (by decide)⟩
